import Mathlib

/-!
Verification of the conversational workflow orchestration engine of the
repository (source: `src/actions/langchainWorkflow.ts`).

Strings are modelled as `List Char` (`Str`).  JavaScript's ambient clock
(`Date.now()`) is modelled as a natural-number clock threaded through the
engine state, incremented at every append; no claim depends on the actual
timestamp values, only on ordering.  Tool handlers (TypeScript
`ToolHandler = (input, context) => Promise<string> | string`) are modelled
as pure functions `Str → HandlerCtx → Except Str Str`: a handler either
returns a string or raises an error, and it can read the context (memory
snapshot, metadata, accumulated tool results) that the engine passes to it.
-/

abbrev Str : Type := List Char

/-- The character `{` (written via its code so that no literal brace
appears outside strings). -/
def lbrace : Char := Char.ofNat 123

/-- The character `}`. -/
def rbrace : Char := Char.ofNat 125

/-- The backquote character, used by JavaScript replacement patterns. -/
def bqChar : Char := Char.ofNat 96

/-- String literal to `Str` conversion. -/
def strL (s : String) : Str := s.data

/-- The characters matched by the JavaScript regular-expression class `\s`
(restricted to its ASCII part, which covers every string occurring in the
program and its tests). -/
def isWsChar (c : Char) : Bool :=
  c == ' ' || c == '\t' || c == '\n' || c == '\r' ||
  c == Char.ofNat 11 || c == Char.ofNat 12

/-- Alphanumeric characters: placeholder names built from these contain no
regular-expression metacharacter, no whitespace and no brace, so the
literal matcher below is faithful to `new RegExp` on them. -/
def isAlnumChar (c : Char) : Bool := c.isAlpha || c.isDigit

/-- Drop a leading whitespace run (the `\s*` parts of the placeholder
pattern; `\s*` is greedy and whatever follows it in the pattern cannot
match a whitespace character, so maximal munch is faithful). -/
def dropWs (s : Str) : Str := s.dropWhile isWsChar

/-- Match a literal sequence at the front of a string, returning the
remainder on success. -/
def dropLit : Str → Str → Option Str
  | [], s => some s
  | _ :: _, [] => none
  | p :: ps, c :: cs => if p = c then dropLit ps cs else none

/-- Try to match the pattern `{{\s*key\s*}}` (from
`new RegExp("{{\\s*" + key + "\\s*}}", "g")` in `PromptTemplate.format`)
at the front of `s`; on success return the remainder of `s`. -/
def tryMatch (key s : Str) : Option Str :=
  match dropLit [lbrace, lbrace] s with
  | none => none
  | some s1 =>
    match dropLit key (dropWs s1) with
    | none => none
    | some s2 => dropLit [rbrace, rbrace] (dropWs s2)

/-- JavaScript `String.prototype.replace` substitution-pattern processing
of the replacement string (ECMAScript `GetSubstitution`): `$$` is a
literal dollar, `$&` the matched text, a dollar followed by backquote the
portion before the match, `$'` the portion after the match; any other
dollar is literal.  (`$n` group references do not arise: the placeholder
pattern has no capture group, so `$1`… are literal, which the catch-all
dollar case reproduces.) -/
def procRepl (matched before after : Str) : Str → Str
  | [] => []
  | c :: cs =>
    if c = '$' then
      match cs with
      | [] => ['$']
      | d :: rest =>
        if d = '$' then '$' :: procRepl matched before after rest
        else if d = '&' then matched ++ procRepl matched before after rest
        else if d = bqChar then before ++ procRepl matched before after rest
        else if d = '\'' then after ++ procRepl matched before after rest
        else '$' :: procRepl matched before after (d :: rest)
    else c :: procRepl matched before after cs

/-- A replacement value is dollar-safe when it contains none of the
substitution sequences interpreted by `String.prototype.replace`. -/
def dollarSafe : Str → Bool
  | [] => true
  | [_] => true
  | c :: d :: rest =>
    if c = '$' && (d == '$' || d == '&' || d == bqChar || d == '\'') then false
    else dollarSafe (d :: rest)

/-- The global-replace scan of `text.replace(pattern, value)`: leftmost,
non-overlapping matches, each replaced by the (substitution-processed)
value; scanning resumes after the match, without rescanning the inserted
value.  `before` is the portion of the original string already consumed
(needed by the substitution patterns), `fuel` bounds the recursion (every
step consumes at least one character, so `fuel = length` is enough). -/
def goRepl (key value : Str) : Nat → Str → Str → Str
  | 0, _, rest => rest
  | _ + 1, _, [] => []
  | f + 1, before, c :: cs =>
    match tryMatch key (c :: cs) with
    | some rem =>
      let matched := (c :: cs).take ((c :: cs).length - rem.length)
      procRepl matched before rem value ++ goRepl key value f (before ++ matched) rem
    | none => c :: goRepl key value f (before ++ [c]) cs

/-- One `text.replace(new RegExp("{{\\s*" + key + "\\s*}}", "g"), value)`
step of `PromptTemplate.format`. -/
def replacePlaceholder (key value s : Str) : Str :=
  goRepl key value s.length [] s

/-- `PromptTemplate.format(variables)`: `Object.entries(variables)` in
insertion order, folded with `reduce` starting from the template. -/
def formatTemplate (template : Str) (vars : List (Str × Str)) : Str :=
  vars.foldl (fun t kv => replacePlaceholder kv.1 kv.2 t) template

/-! ### Conversation memory (`ConversationMemory`) -/

inductive Role : Type
  | user
  | assistant
deriving DecidableEq, Repr

/-- `${entry.role}` interpolation of the role union type. -/
def roleText : Role → Str
  | .user => strL "user"
  | .assistant => strL "assistant"

structure MemoryEntry : Type where
  role : Role
  text : Str
  timestamp : Nat
deriving DecidableEq, Repr

/-- `ConversationMemory.append`: push the entry, then if the length
exceeds the limit keep only the last `limit` entries
(`this.history.slice(this.history.length - this.limit)`). -/
def memAppend (limit : Nat) (history : List MemoryEntry) (e : MemoryEntry) :
    List MemoryEntry :=
  let h2 := history ++ [e]
  if limit < h2.length then h2.drop (h2.length - limit) else h2

/-- `Array.prototype.join(sep)`. -/
def joinSep (sep : Str) : List Str → Str
  | [] => []
  | [x] => x
  | x :: y :: rest => x ++ sep ++ joinSep sep (y :: rest)

/-- The rendering `"[${entry.role}] ${entry.text}"` of one entry. -/
def renderEntry (e : MemoryEntry) : Str :=
  strL "[" ++ roleText e.role ++ strL "] " ++ e.text

/-- `ConversationMemory.summarize`: join the rendered entries with a
newline; `summary || "Conversation just started."` falls back to the
sentinel exactly when the joined string is empty. -/
def summarizeHistory (h : List MemoryEntry) : Str :=
  let summary := joinSep (strL "\n") (h.map renderEntry)
  if summary = [] then strL "Conversation just started." else summary

/-! ### JSON serialization (`JSON.stringify` on string-keyed records)

The engine serializes `context.metadata` and `context.toolResults` into
prompts with `JSON.stringify`.  Both are modelled as string-to-string
records in insertion order, which is also the order `JSON.stringify`
uses. -/

/-- Hex digit for the `\u00XX` escapes of control characters. -/
def hexDigit (n : Nat) : Char :=
  if n < 10 then Char.ofNat (48 + n) else Char.ofNat (87 + n)

/-- JSON string-body escaping as performed by `JSON.stringify`. -/
def jsonEscape : Str → Str
  | [] => []
  | c :: cs =>
    if c = '"' then '\\' :: '"' :: jsonEscape cs
    else if c = '\\' then '\\' :: '\\' :: jsonEscape cs
    else if c = '\n' then '\\' :: 'n' :: jsonEscape cs
    else if c = '\r' then '\\' :: 'r' :: jsonEscape cs
    else if c = '\t' then '\\' :: 't' :: jsonEscape cs
    else if c = Char.ofNat 8 then '\\' :: 'b' :: jsonEscape cs
    else if c = Char.ofNat 12 then '\\' :: 'f' :: jsonEscape cs
    else if c.toNat < 32 then
      '\\' :: 'u' :: '0' :: '0' :: hexDigit (c.toNat / 16) :: hexDigit (c.toNat % 16) ::
        jsonEscape cs
    else c :: jsonEscape cs

/-- A JSON string literal. -/
def jsonQuote (s : Str) : Str := '"' :: jsonEscape s ++ ['"']

/-- `JSON.stringify` of a string-keyed, string-valued record. -/
def jsonRecord (m : List (Str × Str)) : Str :=
  [lbrace] ++ joinSep (strL ",") (m.map fun kv => jsonQuote kv.1 ++ strL ":" ++ jsonQuote kv.2)
    ++ [rbrace]

/-! ### Response synthesis (`LangChainWorkflow.generateResponse`) -/

/-- `String.prototype.split("\n")`. -/
def splitNl : Str → List Str
  | [] => [[]]
  | c :: cs =>
    match splitNl cs with
    | [] => [[]]
    | seg :: rest => if c = '\n' then [] :: seg :: rest else (c :: seg) :: rest

/-- `prompt.split("\n").slice(-1)[0] ?? prompt`. -/
def lastSegment (s : Str) : Str :=
  match (splitNl s).getLast? with
  | some l => l
  | none => s

/-- `String.prototype.replace(/\s+/g, " ")`: every maximal whitespace run
becomes a single space. -/
def collapseWs : Str → Str
  | [] => []
  | [c] => if isWsChar c then [' '] else [c]
  | c1 :: c2 :: rest =>
    if isWsChar c1 then
      if isWsChar c2 then collapseWs (c2 :: rest)
      else ' ' :: collapseWs (c2 :: rest)
    else c1 :: collapseWs (c2 :: rest)

/-- `String.prototype.trim()`. -/
def trimWs (s : Str) : Str :=
  ((s.dropWhile isWsChar).reverse.dropWhile isWsChar).reverse

/-- `LangChainWorkflow.generateResponse(prompt, toolObservation)`: keep
the last line of the prompt, push the tool observation when it is truthy
(a non-empty string), join with `" | "`, collapse whitespace, trim, and
fall back to the fixed string when the result is empty. -/
def generateResponse (prompt : Str) (toolObservation : Option Str) : Str :=
  let lines := [lastSegment prompt] ++
    (match toolObservation with
     | some t => if t = [] then [] else [t]
     | none => [])
  let synthesized := trimWs (collapseWs (joinSep (strL " | ") lines))
  if synthesized = [] then strL "No actionable insight produced." else synthesized

/-! ### Tools, steps and the workflow engine -/

/-- The view of `ChainContext` that a tool handler receives: the engine's
memory (the handler can take a `snapshot()`), the per-invocation metadata
copy, and the accumulated tool results. -/
structure HandlerCtx : Type where
  memory : List MemoryEntry
  metadata : List (Str × Str)
  toolResults : List (Str × Str)

/-- `ToolHandler`: may fail (a thrown error is an `Except.error`). -/
def ToolHandler : Type := Str → HandlerCtx → Except Str Str

structure LCTool : Type where
  name : Str
  description : Str
  handler : ToolHandler

/-- `LangChainTool.invoke`: run the handler and decorate its output as
`"${this.name} (${this.description}): ${result}"`; a handler error
propagates unmodified. -/
def toolInvoke (t : LCTool) (input : Str) (ctx : HandlerCtx) : Except Str Str :=
  match t.handler input ctx with
  | .error e => .error e
  | .ok r => .ok (t.name ++ strL " (" ++ t.description ++ strL "): " ++ r)

structure ChainStep : Type where
  name : Str
  prompt : Str
  tool : Option LCTool

structure StepTrace : Type where
  step : Str
  prompt : Str
  toolResult : Option Str
  response : Str
deriving DecidableEq, Repr

structure WorkflowResult : Type where
  final : Str
  trace : List StepTrace
deriving DecidableEq, Repr

/-- JavaScript object / `Map` keyed update: an existing key keeps its
position and gets the new value, a new key is appended. -/
def setKeyG {α : Type} : List (Str × α) → Str → α → List (Str × α)
  | [], k, v => [(k, v)]
  | (k', v') :: rest, k, v =>
    if k' = k then (k', v) :: rest else (k', v') :: setKeyG rest k v

/-- JavaScript `Map.prototype.get`. -/
def lookupKey {α : Type} : List (Str × α) → Str → Option α
  | [], _ => none
  | (k', v) :: rest, k => if k' = k then some v else lookupKey rest k

/-- The engine: registry, ordered steps, one persistent conversation
memory (its history plus the configured window), and the modelled clock. -/
structure LangChainWorkflow : Type where
  limit : Nat
  tools : List (Str × LCTool)
  steps : List ChainStep
  history : List MemoryEntry
  clock : Nat

/-- `registerTool(name, description, handler)`. -/
def registerTool (wf : LangChainWorkflow) (name description : Str) (h : ToolHandler) :
    LangChainWorkflow :=
  { wf with tools := setKeyG wf.tools name ⟨name, description, h⟩ }

/-- `addStep(name, template, toolName?)`.  The result pairs the outcome
with the (possibly unchanged) engine, mirroring that a thrown error
leaves the receiver unmutated.  Note `toolName ? this.tools.get(toolName)
: undefined` and `if (toolName && !tool)` both treat the empty string as
falsy. -/
def addStep (wf : LangChainWorkflow) (name template : Str) (toolName : Option Str) :
    Except Str Unit × LangChainWorkflow :=
  match toolName with
  | none => (.ok (), { wf with steps := wf.steps ++ [⟨name, template, none⟩] })
  | some tn =>
    if tn = [] then (.ok (), { wf with steps := wf.steps ++ [⟨name, template, none⟩] })
    else
      match lookupKey wf.tools tn with
      | some t => (.ok (), { wf with steps := wf.steps ++ [⟨name, template, some t⟩] })
      | none => (.error (strL "Tool \"" ++ tn ++ strL "\" has not been registered."), wf)

/-- The per-invocation loop state: engine memory, clock, accumulated
`context.toolResults`, the `previousOutput` fed forward, and the trace. -/
structure RunState : Type where
  mem : List MemoryEntry
  clock : Nat
  toolResults : List (Str × Str)
  prev : Str
  trace : List StepTrace

/-- The four bindings passed to `step.prompt.format({...})`, in the
insertion order of the object literal. -/
def stepBindings (prev : Str) (mem : List MemoryEntry) (md trs : List (Str × Str)) :
    List (Str × Str) :=
  [(strL "input", prev), (strL "memory", summarizeHistory mem),
   (strL "metadata", jsonRecord md), (strL "toolResults", jsonRecord trs)]

/-- The `for (const step of this.steps)` loop of `invoke`.  On a handler
error the loop stops, returning the state reached so far together with
the error (the trace accumulated so far is abandoned by `invoke`, but the
memory mutations persist). -/
def stepLoop (limit : Nat) (md : List (Str × Str)) :
    List ChainStep → RunState → RunState × Option Str
  | [], st => (st, none)
  | step :: rest, st =>
    let prompt := formatTemplate step.prompt (stepBindings st.prev st.mem md st.toolResults)
    match step.tool with
    | none =>
      let response := generateResponse prompt none
      stepLoop limit md rest
        ⟨memAppend limit st.mem ⟨.assistant, response, st.clock⟩, st.clock + 1,
         st.toolResults, response, st.trace ++ [⟨step.name, prompt, none, response⟩]⟩
    | some t =>
      match toolInvoke t prompt ⟨st.mem, md, st.toolResults⟩ with
      | .error e => (st, some e)
      | .ok r =>
        let response := generateResponse prompt (some r)
        stepLoop limit md rest
          ⟨memAppend limit st.mem ⟨.assistant, response, st.clock⟩, st.clock + 1,
           setKeyG st.toolResults t.name r, response,
           st.trace ++ [⟨step.name, prompt, some r, response⟩]⟩

/-- `LangChainWorkflow.invoke(query, metadata)`: guard on an empty step
list, append the query to memory with role `user`, run the step loop, and
either return the result or propagate the error.  The second component is
the engine after the call: its memory (and clock) mutations persist even
when an error propagates. -/
def invoke (wf : LangChainWorkflow) (query : Str) (md : List (Str × Str)) :
    Except Str WorkflowResult × LangChainWorkflow :=
  if wf.steps.isEmpty then
    (.error (strL "No steps registered in the LangChain workflow."), wf)
  else
    let st0 : RunState :=
      ⟨memAppend wf.limit wf.history ⟨.user, query, wf.clock⟩, wf.clock + 1, [], query, []⟩
    match stepLoop wf.limit md wf.steps st0 with
    | (st, some e) => (.error e, { wf with history := st.mem, clock := st.clock })
    | (st, none) =>
      (.ok ⟨st.prev, st.trace⟩, { wf with history := st.mem, clock := st.clock })

/-! ### Derived notions used by the statements -/

/-- The last `n` elements of a list (all of it when it is shorter). -/
def lastN {α : Type} (n : Nat) (xs : List α) : List α := xs.drop (xs.length - n)

/-- Fold a sequence of appends into a memory. -/
def applyAppends (limit : Nat) (h : List MemoryEntry) (es : List MemoryEntry) :
    List MemoryEntry :=
  es.foldl (memAppend limit) h

/-- The assistant entries produced by a list of step responses, stamped
with consecutive clock values starting at `c`. -/
def assistEntries (c : Nat) : List Str → List MemoryEntry
  | [] => []
  | r :: rs => ⟨.assistant, r, c⟩ :: assistEntries (c + 1) rs

/-- The entries produced by a sequence of `append(role, text)` calls,
stamped with consecutive clock values starting at `c`. -/
def entriesOf (c : Nat) : List (Role × Str) → List MemoryEntry
  | [] => []
  | (r, t) :: rest => ⟨r, t, c⟩ :: entriesOf (c + 1) rest

/-- A memory of capacity `limit` after a sequence of `append` calls
starting from empty (clock starting at 0). -/
def runMemory (limit : Nat) (calls : List (Role × Str)) : List MemoryEntry :=
  applyAppends limit [] (entriesOf 0 calls)

/-- The last element of a list, or a default for the empty list. -/
def lastD {α : Type} : List α → α → α
  | [], d => d
  | a :: l, _ => lastD l a

/-- `"${name} (${description}): ${result}"`, the decoration applied by
`LangChainTool.invoke`. -/
def wrapResult (t : LCTool) (r : Str) : Str :=
  t.name ++ strL " (" ++ t.description ++ strL "): " ++ r

/-- The `previousOutput` fed into step `k` (0-indexed): the caller's query
for the first step, afterwards the previous step's response. -/
def prevAt (q : Str) (trace : List StepTrace) (k : Nat) : Str :=
  lastD ((trace.take k).map (·.response)) q

/-- The engine memory at the start of step `k` of an invocation: the
initial history, the appended user query, then the assistant responses of
steps `0..k-1`, all subject to window trimming. -/
def memAt (wf : LangChainWorkflow) (q : Str) (trace : List StepTrace) (k : Nat) :
    List MemoryEntry :=
  applyAppends wf.limit (memAppend wf.limit wf.history ⟨.user, q, wf.clock⟩)
    (assistEntries (wf.clock + 1) ((trace.take k).map (·.response)))

/-- The accumulated `context.toolResults` described by the spec: fold the
recorded tool results of the given (step, trace-entry) pairs, writing each
under its tool's name with last-write-wins. -/
def trFold (m : List (Str × Str)) (pairs : List (ChainStep × StepTrace)) :
    List (Str × Str) :=
  pairs.foldl
    (fun acc p =>
      match p.1.tool, p.2.toolResult with
      | some t, some r => setKeyG acc t.name r
      | _, _ => acc)
    m

/-- `context.toolResults` as it stands when step `k` (0-indexed) formats
its prompt: exactly the outputs recorded by steps `0..k-1`. -/
def trAt (steps : List ChainStep) (trace : List StepTrace) (k : Nat) :
    List (Str × Str) :=
  trFold [] ((steps.zip trace).take k)

/-- The last newline-separated segment of a string, formulated from the
right (the spec's description), to be proved equal to the code's
`split`/`slice` formulation. -/
def lastSegSpec (s : Str) : Str := (s.reverse.takeWhile (fun c => c != '\n')).reverse

/-- Modelled from the spec (§4.5 response synthesis) and claim C7 as
amended: last prompt segment, then the tool result when present and
non-empty, joined with `" | "`, whitespace-collapsed and trimmed, with the
fixed fallback when empty. -/
def generateResponseSpec (p : Str) (r : Option Str) : Str :=
  let base := lastSegSpec p
  let joined :=
    match r with
    | some t => if t = [] then base else base ++ strL " | " ++ t
    | none => base
  let s := trimWs (collapseWs joined)
  if s = [] then strL "No actionable insight produced." else s

/-- Claim C7 exactly as stated (before amendment): the tool result is
appended whenever it exists, empty or not. -/
def generateResponseClaimC7 (p : Str) (r : Option Str) : Str :=
  let base := lastSegSpec p
  let joined :=
    match r with
    | some t => base ++ strL " | " ++ t
    | none => base
  let s := trimWs (collapseWs joined)
  if s = [] then strL "No actionable insight produced." else s

/-- A placeholder occurrence `{{w1 name w2}}` with whitespace runs `w1`,
`w2` around the name, as tolerated by the pattern `{{\s*name\s*}}`. -/
def phw (w1 name w2 : Str) : Str :=
  [lbrace, lbrace] ++ w1 ++ name ++ w2 ++ [rbrace, rbrace]

/-- Every character is whitespace. -/
def allWsB (s : Str) : Bool := s.all isWsChar

/-- Every character is alphanumeric. -/
def allAlnumB (s : Str) : Bool := s.all isAlnumChar

/-- No character is an opening brace (such text can contain no
placeholder start). -/
def noLBraceB (s : Str) : Bool := s.all (fun c => c != lbrace)

/-! ### Concrete instances (used by the witnesses) -/

/-- A fresh engine with the default memory window and nothing
registered. -/
def wfEmpty : LangChainWorkflow := ⟨6, [], [], [], 0⟩

/-- A constant tool, named `t`, described `d`, returning `R`. -/
def toolT : LCTool := ⟨strL "t", strL "d", fun _ _ => .ok (strL "R")⟩

/-- A two-step engine: step `s1` formats the running input and calls
`toolT`; step `s2` is a fixed prompt with no tool. -/
def wf1 : LangChainWorkflow :=
  ⟨6, [(strL "t", toolT)],
   [⟨strL "s1", strL "\x7b\x7binput\x7d\x7d", some toolT⟩,
    ⟨strL "s2", strL "B", none⟩], [], 0⟩

/-- The result of `invoke wf1 "q" []` (checked definitionally below). -/
def res1 : WorkflowResult :=
  ⟨strL "B",
   [⟨strL "s1", strL "q", some (strL "t (d): R"), strL "q | t (d): R"⟩,
    ⟨strL "s2", strL "B", none, strL "B"⟩]⟩

/-- A tool whose handler always raises `boom`. -/
def toolBoom : LCTool := ⟨strL "f", strL "d", fun _ _ => .error (strL "boom")⟩

/-- An engine whose second step's tool raises: the first step succeeds,
the second aborts the invocation. -/
def wfErr : LangChainWorkflow :=
  ⟨6, [(strL "f", toolBoom)],
   [⟨strL "s1", strL "A", none⟩, ⟨strL "s2", strL "B", some toolBoom⟩], [], 0⟩

/-! ### Lemmas: bounded conversation memory -/

/-- `lastN` never returns more than `n` elements. -/
theorem lastN_length_le {α : Type} (n : Nat) (xs : List α) : (lastN n xs).length ≤ n := by
  simp only [lastN, List.length_drop]
  omega

/-- One `append` keeps exactly the last `limit` entries of the extended
history. -/
theorem memAppend_eq_lastN (limit : Nat) (h : List MemoryEntry) (e : MemoryEntry) :
    memAppend limit h e = lastN limit (h ++ [e]) := by
  simp only [memAppend, lastN]
  split
  · rfl
  · next hle =>
    have h0 : (h ++ [e]).length - limit = 0 := by omega
    rw [h0, List.drop_zero]

/-- The length invariant is restored by every `append`. -/
theorem memAppend_length_le (limit : Nat) (h : List MemoryEntry) (e : MemoryEntry) :
    (memAppend limit h e).length ≤ limit := by
  simp only [memAppend]
  split
  · simp only [List.length_drop]
    omega
  · omega

/-- Keeping the last `n` elements is absorbed by a later `lastN` over an
extension. -/
theorem lastN_absorb {α : Type} (n : Nat) (xs ys : List α) :
    lastN n (lastN n xs ++ ys) = lastN n (xs ++ ys) := by
  simp only [lastN, List.length_append, List.length_drop]
  rcases le_or_lt n ys.length with hb | hb
  · have e1 : xs.length - (xs.length - n) + ys.length - n
        = (List.drop (xs.length - n) xs).length + (ys.length - n) := by
      simp only [List.length_drop]; omega
    have e2 : xs.length + ys.length - n = xs.length + (ys.length - n) := by omega
    rw [e1, List.drop_append, e2, List.drop_append]
  · rcases le_or_lt xs.length n with ha | ha
    · have h0 : xs.length - n = 0 := by omega
      simp [h0]
    · have e1 : xs.length - (xs.length - n) + ys.length - n = ys.length := by omega
      have hle : ys.length ≤ (List.drop (xs.length - n) xs).length := by
        simp only [List.length_drop]; omega
      rw [e1, List.drop_append_of_le_length hle, List.drop_drop]
      have hle2 : xs.length + ys.length - n ≤ xs.length := by omega
      rw [List.drop_append_of_le_length hle2]
      have e2 : xs.length - n + ys.length = xs.length + ys.length - n := by omega
      rw [e2]

/-- Folding appends from a history that satisfies the invariant keeps
exactly the most recent `limit` entries of the whole sequence. -/
theorem applyAppends_eq_lastN (limit : Nat) :
    ∀ (es : List MemoryEntry) (h : List MemoryEntry), h.length ≤ limit →
      applyAppends limit h es = lastN limit (h ++ es)
  | [], h, hh => by
    simp only [applyAppends, List.foldl_nil, List.append_nil, lastN]
    have h0 : h.length - limit = 0 := by omega
    rw [h0, List.drop_zero]
  | e :: es, h, hh => by
    have step : applyAppends limit h (e :: es) = applyAppends limit (memAppend limit h e) es := rfl
    rw [step, applyAppends_eq_lastN limit es _ (memAppend_length_le limit h e),
      memAppend_eq_lastN, lastN_absorb]
    simp

/-- `ConversationMemory.snapshot()`: an (identical) copy of the history. -/
def snapshot (h : List MemoryEntry) : List MemoryEntry := h

/-- C1: after any sequence of `append` calls on a memory of capacity
`limit`, the snapshot has length at most `limit` and consists of exactly
the most recent `limit` appended entries, in chronological order.  (Any
"after each call" prefix is itself an instance of `calls`.) -/
theorem C1_bounded_memory (limit : Nat) (calls : List (Role × Str)) :
    (snapshot (runMemory limit calls)).length ≤ limit ∧
      snapshot (runMemory limit calls) = lastN limit (entriesOf 0 calls) := by
  have h2 : runMemory limit calls = lastN limit (entriesOf 0 calls) := by
    have := applyAppends_eq_lastN limit (entriesOf 0 calls) [] (by simp)
    simpa [runMemory] using this
  exact ⟨by rw [snapshot, h2]; exact lastN_length_le _ _, h2⟩

/-! ### C5: empty-workflow guard -/

/-- C5: invoking a workflow with zero configured steps fails immediately
with the exact guard message, and the engine — in particular its memory —
is completely unchanged, for every query and metadata argument. -/
theorem C5_empty_guard (wf : LangChainWorkflow) (q : Str) (md : List (Str × Str))
    (h : wf.steps = []) :
    invoke wf q md = (.error (strL "No steps registered in the LangChain workflow."), wf) := by
  simp [invoke, h]

/-- Witness for C5 at a concrete empty engine. -/
theorem C5_empty_guard_witness :
    invoke wfEmpty (strL "x") []
      = (.error (strL "No steps registered in the LangChain workflow."), wfEmpty) :=
  C5_empty_guard wfEmpty (strL "x") [] rfl

/-! ### C6: fail-fast on dangling tool references in `addStep` -/

/-- C6 (amended): `addStep` with a non-empty tool name that is not in the
registry fails with the exact message naming the tool and leaves the
engine unchanged; `addStep` with an omitted tool name succeeds; `addStep`
with a registered tool name succeeds.  (The amendment restricts the
failure case to non-empty names: the empty string is falsy in the
source's `if (toolName && !tool)` guard, see the counterexample.) -/
theorem C6_addStep_guard (wf : LangChainWorkflow) (name tpl : Str) :
    (∀ tn : Str, tn ≠ [] → lookupKey wf.tools tn = none →
        addStep wf name tpl (some tn)
          = (.error (strL "Tool \"" ++ tn ++ strL "\" has not been registered."), wf))
    ∧ addStep wf name tpl none
        = (.ok (), { wf with steps := wf.steps ++ [⟨name, tpl, none⟩] })
    ∧ (∀ (tn : Str) (t : LCTool), lookupKey wf.tools tn = some t →
        (addStep wf name tpl (some tn)).1 = .ok ()) := by
  refine ⟨?_, rfl, ?_⟩
  · intro tn hne hnone
    simp [addStep, hne, hnone]
  · intro tn t hsome
    by_cases hne : tn = []
    · simp [addStep, hne]
    · simp [addStep, hne, hsome]

/-- Witness for C6: a dangling reference fails with the exact message; a
registered name succeeds. -/
theorem C6_addStep_guard_witness :
    addStep wfEmpty (strL "s") (strL "t") (some (strL "missingTool"))
        = (.error (strL "Tool \"" ++ strL "missingTool" ++ strL "\" has not been registered."),
           wfEmpty)
    ∧ (addStep wf1 (strL "s") (strL "tpl") (some (strL "t"))).1 = .ok () :=
  ⟨(C6_addStep_guard wfEmpty (strL "s") (strL "t")).1 (strL "missingTool") (by decide) rfl,
   (C6_addStep_guard wf1 (strL "s") (strL "tpl")).2.2 (strL "t") toolT rfl⟩

/-- Counterexample to C6 as stated: the empty string is an unregistered
tool name, yet `addStep` succeeds with it (the source treats `""` as an
omitted tool name because it is falsy). -/
theorem C6_addStep_guard_counterexample :
    (addStep wfEmpty (strL "s") (strL "t") (some ([] : Str))).1 = .ok ()
    ∧ lookupKey wfEmpty.tools ([] : Str) = none :=
  ⟨rfl, rfl⟩

/-! ### C9: `summarize` -/

/-- `joinSep` of a list whose head starts with a character is non-empty. -/
theorem joinSep_cons_ne_nil (sep : Str) (c : Char) (t : Str) (xs : List Str) :
    joinSep sep ((c :: t) :: xs) ≠ [] := by
  cases xs <;> simp [joinSep]

/-- C9 (amended): `summarize` returns the newline-joined `"[role] text"`
renderings in chronological order, and the sentinel
`"Conversation just started."` exactly on an empty history.  It is a pure
function of the history. -/
theorem C9_summarize (h : List MemoryEntry) :
    summarizeHistory h
      = if h = [] then strL "Conversation just started."
        else joinSep (strL "\n") (h.map renderEntry) := by
  cases h with
  | nil => simp [summarizeHistory, joinSep]
  | cons e hs =>
    have hr : renderEntry e = '[' :: (roleText e.role ++ strL "] " ++ e.text) := by
      simp [renderEntry, strL]
    have hne : joinSep (strL "\n") ((e :: hs).map renderEntry) ≠ [] := by
      rw [List.map_cons, hr]
      exact joinSep_cons_ne_nil _ _ _ _
    simp only [summarizeHistory]
    rw [if_neg hne, if_neg (by simp)]

/-- Counterexample to C9 as stated: on an empty memory the sentinel is
`"Conversation just started."` (capitalized, with a period), not
`"conversation just started"`. -/
theorem C9_summarize_counterexample :
    summarizeHistory [] = strL "Conversation just started."
    ∧ ¬ summarizeHistory [] = strL "conversation just started" := by
  exact ⟨rfl, by decide⟩

/-! ### C7: response synthesis -/

/-- `split` never returns an empty list of segments. -/
theorem splitNl_ne_nil (s : Str) : splitNl s ≠ [] := by
  cases s with
  | nil => simp [splitNl]
  | cons c cs =>
    rw [splitNl]
    cases hcs : splitNl cs with
    | nil => simp
    | cons seg rest => dsimp only; split <;> simp

/-- A string without a newline is its own single segment. -/
theorem splitNl_no_nl (s : Str) (h : '\n' ∉ s) : splitNl s = [s] := by
  induction s with
  | nil => rfl
  | cons c cs ih =>
    have hc : ¬ c = '\n' := fun he => h (he ▸ List.mem_cons_self c cs)
    have hcs : '\n' ∉ cs := fun hm => h (List.mem_cons_of_mem c hm)
    rw [splitNl, ih hcs]
    simp [hc]

/-- A single segment means: no newline, and the segment is the string. -/
theorem splitNl_singleton (s x : Str) (h : splitNl s = [x]) : '\n' ∉ s ∧ x = s := by
  induction s generalizing x with
  | nil =>
    simp only [splitNl] at h
    injection h with h1 _
    exact ⟨by simp, h1.symm⟩
  | cons c cs ih =>
    rw [splitNl] at h
    cases hcs : splitNl cs with
    | nil => exact absurd hcs (splitNl_ne_nil cs)
    | cons seg rest =>
      rw [hcs] at h
      dsimp only at h
      by_cases hc : c = '\n'
      · rw [if_pos hc] at h
        injection h with _ h2
        cases h2
      · rw [if_neg hc] at h
        injection h with h1 h2
        obtain ⟨hmem, hseg⟩ := ih seg (h2 ▸ hcs)
        constructor
        · simp only [List.mem_cons, not_or]
          exact ⟨fun he => hc he.symm, hmem⟩
        · rw [← h1, hseg]

/-- A string whose elements are all non-newline is fixed by the
newline-truncating `takeWhile`. -/
theorem takeWhile_notNl_eq_self (l : Str) (h : '\n' ∉ l) :
    l.takeWhile (fun c => c != '\n') = l := by
  apply List.takeWhile_eq_self_iff.mpr
  intro a ha
  simp only [bne_iff_ne, ne_eq]
  exact fun he => h (he ▸ ha)

/-- A string without a newline is its own last segment. -/
theorem lastSegSpec_no_nl (s : Str) (h : '\n' ∉ s) : lastSegSpec s = s := by
  rw [lastSegSpec, takeWhile_notNl_eq_self _ (fun hm => h (List.mem_reverse.mp hm)),
    List.reverse_reverse]

/-- When the tail contains a newline, the head character does not affect
the last segment. -/
theorem lastSegSpec_cons_of_mem (c : Char) (cs : Str) (h : '\n' ∈ cs) :
    lastSegSpec (c :: cs) = lastSegSpec cs := by
  have hne : ¬ (cs.reverse.takeWhile (fun c => c != '\n')).length = cs.reverse.length := by
    intro hlen
    have heq : cs.reverse.takeWhile (fun c => c != '\n') = cs.reverse :=
      (List.takeWhile_prefix _).eq_of_length hlen
    have hall := List.takeWhile_eq_self_iff.mp heq '\n' (List.mem_reverse.mpr h)
    simp at hall
  simp only [lastSegSpec, List.reverse_cons, List.takeWhile_append, if_neg hne]

/-- Prepending a newline does not affect the last segment. -/
theorem lastSegSpec_nl_cons (cs : Str) : lastSegSpec ('\n' :: cs) = lastSegSpec cs := by
  by_cases h : '\n' ∈ cs
  · exact lastSegSpec_cons_of_mem _ _ h
  · have h2 : cs.reverse.takeWhile (fun c => c != '\n') = cs.reverse :=
      takeWhile_notNl_eq_self _ (fun hm => h (List.mem_reverse.mp hm))
    rw [lastSegSpec, List.reverse_cons, List.takeWhile_append, lastSegSpec_no_nl cs h,
      if_pos (by rw [h2])]
    simp [List.takeWhile]

/-- The code's `split("\n").slice(-1)[0]` equals the right-to-left
formulation of "the last newline-separated segment". -/
theorem lastSegment_eq_spec (s : Str) : lastSegment s = lastSegSpec s := by
  have key : ∀ s : Str, (splitNl s).getLast? = some (lastSegSpec s) := by
    intro s
    induction s with
    | nil => simp [splitNl, lastSegSpec]
    | cons c cs ih =>
      rw [splitNl]
      cases hcs : splitNl cs with
      | nil => exact absurd hcs (splitNl_ne_nil cs)
      | cons seg rest =>
        rw [hcs] at ih
        dsimp only
        by_cases hc : c = '\n'
        · rw [if_pos hc, List.getLast?_cons_cons, ih, hc, lastSegSpec_nl_cons]
        · rw [if_neg hc]
          cases rest with
          | nil =>
            obtain ⟨hmem, hseg⟩ := splitNl_singleton cs seg hcs
            have hmem2 : '\n' ∉ c :: cs := by
              simp only [List.mem_cons, not_or]
              exact ⟨fun he => hc he.symm, hmem⟩
            rw [lastSegSpec_no_nl _ hmem2]
            simp only [List.getLast?_singleton, hseg]
          | cons r0 r1 =>
            rw [List.getLast?_cons_cons, ← List.getLast?_cons_cons (a := seg), ih]
            have hmem : '\n' ∈ cs := by
              by_contra hnm
              rw [splitNl_no_nl cs hnm] at hcs
              cases hcs
            rw [lastSegSpec_cons_of_mem c cs hmem]
  rw [lastSegment, key s]

/-- C7 (amended): the synthesized response is the last newline-separated
segment of the prompt, followed — when a tool result exists and is
non-empty — by the tool result, joined with `" | "`, whitespace-collapsed
and trimmed, with the fixed fallback `"No actionable insight produced."`
when the outcome is empty.  (The amendment adds "and is non-empty": the
source's truthiness test skips an empty tool-result string, see the
counterexample.) -/
theorem C7_generateResponse (p : Str) (r : Option Str) :
    generateResponse p r = generateResponseSpec p r := by
  cases r with
  | none =>
    simp [generateResponse, generateResponseSpec, joinSep, lastSegment_eq_spec]
  | some t =>
    by_cases ht : t = []
    · simp [generateResponse, generateResponseSpec, joinSep, lastSegment_eq_spec, ht]
    · simp only [generateResponse, generateResponseSpec, lastSegment_eq_spec, if_neg ht]
      rfl

/-- Counterexample to C7 as stated: with prompt `"a"` and the (existing
but empty) tool result `""`, the code synthesizes `"a"` while the claimed
formula yields `"a |"`. -/
theorem C7_generateResponse_counterexample :
    ¬ generateResponse (strL "a") (some [])
        = generateResponseClaimC7 (strL "a") (some []) := by
  decide

/-! ### C8: template formatting -/

/-- A literal pattern strips itself. -/
theorem dropLit_self_append : ∀ p s : Str, dropLit p (p ++ s) = some s
  | [], _ => rfl
  | c :: ps, s => by
    simp only [List.cons_append, dropLit, if_pos rfl]
    exact dropLit_self_append ps s

/-- A successful literal match consumes exactly the pattern's length. -/
theorem dropLit_length : ∀ p s r : Str, dropLit p s = some r → p.length + r.length = s.length
  | [], s, r, h => by
    simp only [dropLit, Option.some.injEq] at h
    subst h
    simp
  | c :: ps, [], r, h => by simp [dropLit] at h
  | c :: ps, x :: xs, r, h => by
    simp only [dropLit] at h
    split at h
    · have := dropLit_length ps xs r h
      simp only [List.length_cons]
      omega
    · cases h

/-- Dropping whitespace never lengthens a string. -/
theorem dropWs_length_le (s : Str) : (dropWs s).length ≤ s.length :=
  (List.dropWhile_sublist _).length_le

/-- A successful placeholder match consumes at least the two opening
braces. -/
theorem tryMatch_length (key s r : Str) (h : tryMatch key s = some r) :
    r.length + 2 ≤ s.length := by
  rw [tryMatch] at h
  cases h1 : dropLit [lbrace, lbrace] s with
  | none => rw [h1] at h; cases h
  | some s1 =>
    simp only [h1] at h
    have hl1 := dropLit_length _ _ _ h1
    cases h2 : dropLit key (dropWs s1) with
    | none => simp only [h2] at h; cases h
    | some s2 =>
      simp only [h2] at h
      have hl2 := dropLit_length _ _ _ h2
      have hl3 := dropLit_length _ _ _ h
      have hw1 := dropWs_length_le s1
      have hw2 := dropWs_length_le s2
      simp only [List.length_cons, List.length_nil] at hl1 hl3
      omega

/-- The scan result does not depend on the fuel, once the fuel covers the
string length. -/
theorem goRepl_fuel (key value : Str) :
    ∀ f (before s : Str), s.length ≤ f →
      goRepl key value f before s = goRepl key value s.length before s := by
  intro f
  induction f using Nat.strong_induction_on with
  | _ f ih =>
    match f with
    | 0 =>
      intro before s hle
      have : s = [] := List.eq_nil_of_length_eq_zero (Nat.le_zero.mp hle)
      subst this
      rfl
    | (g + 1) =>
      intro before s hle
      cases s with
      | nil => rfl
      | cons c cs =>
        simp only [goRepl]
        cases htm : tryMatch key (c :: cs) with
        | none =>
          simp only [List.length_cons] at hle ⊢
          have h1 : goRepl key value g (before ++ [c]) cs
              = goRepl key value cs.length (before ++ [c]) cs :=
            ih g (by omega) _ _ (by omega)
          rw [h1]
        | some rem =>
          have hrem := tryMatch_length key _ _ htm
          simp only [List.length_cons] at hle hrem ⊢
          have h1 : goRepl key value g (before ++ (c :: cs).take (cs.length + 1 - rem.length)) rem
              = goRepl key value rem.length (before ++ (c :: cs).take (cs.length + 1 - rem.length)) rem :=
            ih g (by omega) _ _ (by omega)
          have h2 : goRepl key value cs.length (before ++ (c :: cs).take (cs.length + 1 - rem.length)) rem
              = goRepl key value rem.length (before ++ (c :: cs).take (cs.length + 1 - rem.length)) rem :=
            ih cs.length (by omega) _ _ (by omega)
          rw [h1, h2]

/-- Scan step on a position with no match. -/
theorem repl_cons_none (key value before : Str) (c : Char) (cs : Str)
    (htm : tryMatch key (c :: cs) = none) :
    goRepl key value (c :: cs).length before (c :: cs)
      = c :: goRepl key value cs.length (before ++ [c]) cs := by
  simp only [List.length_cons, goRepl, htm]

/-- Scan step on a position where the placeholder pattern matches. -/
theorem repl_cons_some (key value before : Str) (c : Char) (cs rem : Str)
    (htm : tryMatch key (c :: cs) = some rem) :
    goRepl key value (c :: cs).length before (c :: cs)
      = procRepl ((c :: cs).take ((c :: cs).length - rem.length)) before rem value
        ++ goRepl key value rem.length
            (before ++ (c :: cs).take ((c :: cs).length - rem.length)) rem := by
  have hrem := tryMatch_length key _ _ htm
  simp only [List.length_cons] at hrem
  simp only [List.length_cons, goRepl, htm]
  rw [goRepl_fuel key value cs.length _ rem (by omega)]

/-- A whitespace character is one of the six listed characters. -/
theorem isWsChar_cases (c : Char) (h : isWsChar c = true) :
    c = ' ' ∨ c = '\t' ∨ c = '\n' ∨ c = '\r' ∨ c = Char.ofNat 11 ∨ c = Char.ofNat 12 := by
  simpa [isWsChar, or_assoc] using h

/-- Whitespace is never alphanumeric. -/
theorem ws_not_alnum (c : Char) (h : isWsChar c = true) : isAlnumChar c = false := by
  rcases isWsChar_cases c h with rfl | rfl | rfl | rfl | rfl | rfl <;> decide

/-- Alphanumeric characters are not whitespace. -/
theorem alnum_not_ws (c : Char) (h : isAlnumChar c = true) : isWsChar c = false := by
  cases hw : isWsChar c
  · rfl
  · rw [ws_not_alnum c hw] at h
    cases h

/-- Alphanumeric characters are not braces. -/
theorem alnum_ne_lbrace (c : Char) (h : isAlnumChar c = true) : c ≠ lbrace := by
  intro he
  rw [he] at h
  exact absurd h (by decide)

theorem alnum_ne_rbrace (c : Char) (h : isAlnumChar c = true) : c ≠ rbrace := by
  intro he
  rw [he] at h
  exact absurd h (by decide)

/-- Whitespace characters are not braces. -/
theorem ws_ne_lbrace (c : Char) (h : isWsChar c = true) : c ≠ lbrace := by
  rcases isWsChar_cases c h with rfl | rfl | rfl | rfl | rfl | rfl <;> decide

/-- Dropping whitespace jumps over a whitespace run to the first
non-whitespace character. -/
theorem dropWs_allWs_append (w : Str) (hw : allWsB w = true) (c : Char)
    (hc : isWsChar c = false) (s : Str) : dropWs (w ++ c :: s) = c :: s := by
  induction w with
  | nil => simp [dropWs, List.dropWhile, hc]
  | cons w0 wr ih =>
    simp only [allWsB, List.all_cons, Bool.and_eq_true] at hw
    simp only [List.cons_append, dropWs, List.dropWhile, hw.1]
    exact ih (by simp [allWsB, hw.2])

/-- No match starts at a character other than an opening brace. -/
theorem tryMatch_ne_lbrace (key : Str) (c : Char) (s : Str) (hc : c ≠ lbrace) :
    tryMatch key (c :: s) = none := by
  rw [tryMatch]
  have hd : dropLit [lbrace, lbrace] (c :: s) = none := by
    simp only [dropLit]
    rw [if_neg (fun h => hc h.symm)]
  rw [hd]

/-- No match starts at a lone opening brace. -/
theorem tryMatch_single_lbrace (key : Str) (c : Char) (s : Str) (hc : c ≠ lbrace) :
    tryMatch key (lbrace :: c :: s) = none := by
  rw [tryMatch]
  have hd : dropLit [lbrace, lbrace] (lbrace :: c :: s) = none := by
    have hcc : ¬ lbrace = c := fun h => hc h.symm
    simp [dropLit, hcc]
  rw [hd]

/-- The placeholder pattern for `key` matches its own whitespace-dressed
occurrence and consumes exactly it. -/
theorem tryMatch_phw_self (key w1 w2 : Str) (hkey : allAlnumB key = true)
    (hk0 : key ≠ []) (h1 : allWsB w1 = true) (h2 : allWsB w2 = true) (t : Str) :
    tryMatch key (phw w1 key w2 ++ t) = some t := by
  cases key with
  | nil => exact absurd rfl hk0
  | cons k0 kr =>
    have hk0a : isAlnumChar k0 = true := by
      simp only [allAlnumB, List.all_cons, Bool.and_eq_true] at hkey
      exact hkey.1
    have hshape : phw w1 (k0 :: kr) w2 ++ t
        = lbrace :: lbrace :: (w1 ++ (k0 :: (kr ++ (w2 ++ rbrace :: rbrace :: t)))) := by
      simp [phw]
    rw [hshape, tryMatch]
    have hd1 : dropLit [lbrace, lbrace]
        (lbrace :: lbrace :: (w1 ++ (k0 :: (kr ++ (w2 ++ rbrace :: rbrace :: t)))))
        = some (w1 ++ (k0 :: (kr ++ (w2 ++ rbrace :: rbrace :: t)))) := by
      simp [dropLit]
    simp only [hd1]
    rw [dropWs_allWs_append w1 h1 k0 (alnum_not_ws k0 hk0a)]
    have hd2 : dropLit (k0 :: kr) (k0 :: (kr ++ (w2 ++ rbrace :: rbrace :: t)))
        = some (w2 ++ rbrace :: rbrace :: t) := by
      have := dropLit_self_append (k0 :: kr) (w2 ++ rbrace :: rbrace :: t)
      simpa using this
    simp only [hd2]
    rw [dropWs_allWs_append w2 h2 rbrace (by decide)]
    simp [dropLit]

/-- After a matching `{{`, a key never matches a different alphanumeric
name followed by whitespace and closing braces. -/
theorem mismatch_aux :
    ∀ (nm key : Str), allAlnumB key = true → allAlnumB nm = true → key ≠ nm →
      ∀ (w t s2 : Str), allWsB w = true →
        dropLit key (nm ++ (w ++ rbrace :: rbrace :: t)) = some s2 →
        dropLit [rbrace, rbrace] (dropWs s2) = none := by
  intro nm
  induction nm with
  | nil =>
    intro key hkey _ hne w t s2 hw hd
    cases key with
    | nil => exact absurd rfl hne
    | cons k0 kr =>
      have hk0a : isAlnumChar k0 = true := by
        simp only [allAlnumB, List.all_cons, Bool.and_eq_true] at hkey
        exact hkey.1
      exfalso
      cases w with
      | nil =>
        simp only [List.nil_append, dropLit] at hd
        rw [if_neg (alnum_ne_rbrace k0 hk0a)] at hd
        cases hd
      | cons w0 wr =>
        have hw0 : isWsChar w0 = true := by
          simp only [allWsB, List.all_cons, Bool.and_eq_true] at hw
          exact hw.1
        simp only [List.nil_append, List.cons_append, dropLit] at hd
        have : ¬ k0 = w0 := by
          intro he
          rw [← he] at hw0
          rw [alnum_not_ws k0 hk0a] at hw0
          cases hw0
        rw [if_neg this] at hd
        cases hd
  | cons n0 nr ih =>
    intro key hkey hnm hne w t s2 hw hd
    have hn0a : isAlnumChar n0 = true := by
      simp only [allAlnumB, List.all_cons, Bool.and_eq_true] at hnm
      exact hnm.1
    cases key with
    | nil =>
      simp only [dropLit, Option.some.injEq] at hd
      subst hd
      have hdw : dropWs (n0 :: (nr ++ (w ++ rbrace :: rbrace :: t))) =
          n0 :: (nr ++ (w ++ rbrace :: rbrace :: t)) := by
        have := dropWs_allWs_append ([] : Str) rfl n0 (alnum_not_ws n0 hn0a)
          (nr ++ (w ++ rbrace :: rbrace :: t))
        simpa using this
      simp only [List.cons_append]
      rw [hdw]
      simp only [dropLit]
      rw [if_neg (fun h => alnum_ne_rbrace n0 hn0a h.symm)]
    | cons k0 kr =>
      simp only [List.cons_append, dropLit] at hd
      by_cases hk : k0 = n0
      · rw [if_pos hk] at hd
        have hkr : allAlnumB kr = true := by
          simp only [allAlnumB, List.all_cons, Bool.and_eq_true] at hkey
          simpa [allAlnumB] using hkey.2
        have hnr : allAlnumB nr = true := by
          simp only [allAlnumB, List.all_cons, Bool.and_eq_true] at hnm
          simpa [allAlnumB] using hnm.2
        have hne' : kr ≠ nr := by
          intro he
          exact hne (by rw [hk, he])
        exact ih kr hkr hnr hne' w t s2 hw hd
      · rw [if_neg hk] at hd
        cases hd

/-- The placeholder pattern for `key` does not match an occurrence of a
different (alphanumeric, non-empty) name. -/
theorem tryMatch_phw_other (key nm w1 w2 : Str) (hkey : allAlnumB key = true)
    (hnm : allAlnumB nm = true) (hne : key ≠ nm) (hnm0 : nm ≠ [])
    (h1 : allWsB w1 = true) (h2 : allWsB w2 = true) (t : Str) :
    tryMatch key (phw w1 nm w2 ++ t) = none := by
  cases nm with
  | nil => exact absurd rfl hnm0
  | cons n0 nr =>
    have hn0a : isAlnumChar n0 = true := by
      simp only [allAlnumB, List.all_cons, Bool.and_eq_true] at hnm
      exact hnm.1
    have hshape : phw w1 (n0 :: nr) w2 ++ t
        = lbrace :: lbrace :: (w1 ++ (n0 :: (nr ++ (w2 ++ rbrace :: rbrace :: t)))) := by
      simp [phw]
    rw [hshape, tryMatch]
    have hd1 : dropLit [lbrace, lbrace]
        (lbrace :: lbrace :: (w1 ++ (n0 :: (nr ++ (w2 ++ rbrace :: rbrace :: t)))))
        = some (w1 ++ (n0 :: (nr ++ (w2 ++ rbrace :: rbrace :: t)))) := by
      simp [dropLit]
    simp only [hd1]
    rw [dropWs_allWs_append w1 h1 n0 (alnum_not_ws n0 hn0a)]
    cases hdk : dropLit key (n0 :: (nr ++ (w2 ++ rbrace :: rbrace :: t))) with
    | none => simp only [hdk]
    | some s2 =>
      have hds : dropLit key ((n0 :: nr) ++ (w2 ++ rbrace :: rbrace :: t)) = some s2 := by
        simpa using hdk
      simp only [hdk]
      exact mismatch_aux (n0 :: nr) key hkey hnm hne w2 t s2 h2 hds

/-- A dollar-safe replacement value passes through substitution
processing verbatim. -/
theorem procRepl_dollarSafe (m b a : Str) :
    ∀ v : Str, dollarSafe v = true → procRepl m b a v = v := by
  intro v
  induction v with
  | nil => intro _; rfl
  | cons c cs ih =>
    intro hsafe
    cases cs with
    | nil => by_cases hc : c = '$' <;> simp [procRepl, hc]
    | cons d rest =>
      rw [dollarSafe] at hsafe
      by_cases hc : c = '$'
      · subst hc
        have hcond := hsafe
        by_cases hd : (d == '$' || d == '&' || d == bqChar || d == '\'') = true
        · rw [if_pos (by simp [hd])] at hcond
          cases hcond
        · rw [if_neg (by simpa using hd)] at hcond
          have ihtail := ih hcond
          have hdf : (d == '$' || d == '&' || d == bqChar || d == '\'') = false := by
            simpa using hd
          have hd1 : ¬ d = '$' := fun he => by subst he; simp at hdf
          have hd2 : ¬ d = '&' := fun he => by subst he; simp at hdf
          have hd3 : ¬ d = bqChar := fun he => by subst he; simp at hdf
          have hd4 : ¬ d = '\'' := fun he => by subst he; simp at hdf
          simp only [procRepl, if_pos rfl, if_neg hd1, if_neg hd2, if_neg hd3, if_neg hd4]
          simp [ihtail]
      · rw [if_neg (by simp [hc])] at hsafe
        have ihtail := ih hsafe
        simp only [procRepl, if_neg hc]
        rw [ihtail]

/-- The scan copies brace-free text unchanged. -/
theorem repl_copy (key value : Str) :
    ∀ (a : Str), noLBraceB a = true → ∀ (before t : Str),
      goRepl key value (a ++ t).length before (a ++ t)
        = a ++ goRepl key value t.length (before ++ a) t := by
  intro a
  induction a with
  | nil => intro _ before t; simp
  | cons c a' ih =>
    intro hnb before t
    simp only [noLBraceB, List.all_cons, Bool.and_eq_true, bne_iff_ne, ne_eq] at hnb
    have hc : c ≠ lbrace := hnb.1
    have ha' : noLBraceB a' = true := by
      simp only [noLBraceB]
      exact hnb.2
    rw [List.cons_append, repl_cons_none key value before c (a' ++ t)
      (tryMatch_ne_lbrace key c _ hc)]
    rw [ih ha' (before ++ [c]) t]
    simp

/-- The scan never touches the trailing empty string. -/
theorem repl_nil (key value before : Str) :
    goRepl key value ([] : Str).length before [] = [] := rfl

/-- Brace-free text is left fixed by one whole replacement pass. -/
theorem repl_id (key value : Str) (a : Str) (hnb : noLBraceB a = true) (before : Str) :
    goRepl key value a.length before a = a := by
  have := repl_copy key value a hnb before []
  simpa [goRepl] using this

/-- The scan substitutes a dollar-safe value for the key's own
placeholder occurrence and continues after it. -/
theorem repl_match (key value w1 w2 : Str) (hkey : allAlnumB key = true)
    (hk0 : key ≠ []) (h1 : allWsB w1 = true) (h2 : allWsB w2 = true)
    (hv : dollarSafe value = true) (before t : Str) :
    goRepl key value (phw w1 key w2 ++ t).length before (phw w1 key w2 ++ t)
      = value ++ goRepl key value t.length (before ++ phw w1 key w2) t := by
  have hshape : phw w1 key w2 ++ t
      = lbrace :: ((lbrace :: (w1 ++ key ++ w2 ++ [rbrace, rbrace])) ++ t) := by
    simp [phw]
  have htm : tryMatch key (phw w1 key w2 ++ t) = some t :=
    tryMatch_phw_self key w1 w2 hkey hk0 h1 h2 t
  rw [hshape] at htm ⊢
  rw [repl_cons_some key value before _ _ t htm]
  have hlen : (lbrace :: ((lbrace :: (w1 ++ key ++ w2 ++ [rbrace, rbrace])) ++ t)).length
        - t.length = (phw w1 key w2).length := by
    simp [phw]
    omega
  have htake : (lbrace :: ((lbrace :: (w1 ++ key ++ w2 ++ [rbrace, rbrace])) ++ t)).take
      ((lbrace :: ((lbrace :: (w1 ++ key ++ w2 ++ [rbrace, rbrace])) ++ t)).length - t.length)
      = phw w1 key w2 := by
    rw [hlen]
    have : lbrace :: ((lbrace :: (w1 ++ key ++ w2 ++ [rbrace, rbrace])) ++ t)
        = phw w1 key w2 ++ t := by simp [phw]
    rw [this]
    exact List.take_left _ _
  rw [htake, procRepl_dollarSafe _ _ _ value hv]

/-- The scan leaves a different name's placeholder occurrence verbatim
and continues after it. -/
theorem repl_mismatch (key value nm w1 w2 : Str) (hkey : allAlnumB key = true)
    (hnm : allAlnumB nm = true) (hne : key ≠ nm) (hnm0 : nm ≠ [])
    (h1 : allWsB w1 = true) (h2 : allWsB w2 = true) (before t : Str) :
    goRepl key value (phw w1 nm w2 ++ t).length before (phw w1 nm w2 ++ t)
      = phw w1 nm w2 ++ goRepl key value t.length (before ++ phw w1 nm w2) t := by
  have hbody : ∃ x0 xs, w1 ++ (nm ++ (w2 ++ [rbrace, rbrace])) = x0 :: xs ∧ x0 ≠ lbrace := by
    cases w1 with
    | cons w0 wr =>
      refine ⟨w0, wr ++ (nm ++ (w2 ++ [rbrace, rbrace])), by simp, ?_⟩
      have hw0 : isWsChar w0 = true := by
        simp only [allWsB, List.all_cons, Bool.and_eq_true] at h1
        exact h1.1
      exact ws_ne_lbrace w0 hw0
    | nil =>
      cases nm with
      | nil => exact absurd rfl hnm0
      | cons n0 nr =>
        refine ⟨n0, nr ++ (w2 ++ [rbrace, rbrace]), by simp, ?_⟩
        have hn0 : isAlnumChar n0 = true := by
          simp only [allAlnumB, List.all_cons, Bool.and_eq_true] at hnm
          exact hnm.1
        exact alnum_ne_lbrace n0 hn0
  obtain ⟨x0, xs, hx, hx0⟩ := hbody
  have hshape : phw w1 nm w2 ++ t = lbrace :: lbrace :: (x0 :: xs ++ t) := by
    simp only [phw, List.append_assoc]
    rw [← hx]
    simp
  have htm1 : tryMatch key (phw w1 nm w2 ++ t) = none :=
    tryMatch_phw_other key nm w1 w2 hkey hnm hne hnm0 h1 h2 t
  rw [hshape] at htm1 ⊢
  rw [repl_cons_none key value before _ _ htm1]
  have htm2 : tryMatch key (lbrace :: (x0 :: xs ++ t)) = none := by
    rw [List.cons_append]
    exact tryMatch_single_lbrace key x0 (xs ++ t) hx0
  rw [repl_cons_none key value (before ++ [lbrace]) _ _ htm2]
  have hnbody : noLBraceB (x0 :: xs) = true := by
    rw [← hx]
    simp only [noLBraceB, List.all_append, Bool.and_eq_true]
    refine ⟨?_, ?_, ?_, ?_⟩
    · exact List.all_eq_true.mpr (fun c hc => by
        have hw := List.all_eq_true.mp h1 c hc
        simpa using ws_ne_lbrace c hw)
    · exact List.all_eq_true.mpr (fun c hc => by
        have ha := List.all_eq_true.mp hnm c hc
        simpa using alnum_ne_lbrace c ha)
    · exact List.all_eq_true.mpr (fun c hc => by
        have hw := List.all_eq_true.mp h2 c hc
        simpa using ws_ne_lbrace c hw)
    · decide
  rw [repl_copy key value (x0 :: xs) hnbody (before ++ [lbrace] ++ [lbrace]) t]
  have hre : lbrace :: lbrace :: (x0 :: xs) = phw w1 nm w2 := by
    simp only [phw, List.append_assoc, List.cons_append, List.nil_append]
    rw [← hx]
  have hbe : before ++ [lbrace] ++ [lbrace] ++ (x0 :: xs) = before ++ phw w1 nm w2 := by
    rw [← hre]
    simp
  rw [hbe, ← hre]
  simp

/-- `format` with a single binding is one global replace. -/
theorem formatTemplate_single (key v tpl : Str) :
    formatTemplate tpl [(key, v)] = goRepl key v tpl.length [] tpl := rfl

/-- C8 (amended): `format` replaces every occurrence of a bound
placeholder (whitespace tolerated around the name) with the bound value
and leaves placeholders of unbound names verbatim, provided the bound
value contains no `String.replace` substitution sequence (`$$`, `$&`,
a dollar before a backquote, `$'`) — such sequences are interpreted by
the underlying replace, see the counterexample.  Shown for a template
with two occurrences of the bound name `key` around one occurrence of an
unbound name `nm`, with arbitrary brace-free text in between. -/
theorem C8_format_placeholders
    (a b c d v key nm w1 w2 w3 w4 w5 w6 : Str)
    (hkey : allAlnumB key = true) (hk0 : key ≠ [])
    (hnm : allAlnumB nm = true) (hnm0 : nm ≠ []) (hne : key ≠ nm)
    (ha : noLBraceB a = true) (hb : noLBraceB b = true)
    (hc : noLBraceB c = true) (hd : noLBraceB d = true)
    (hw1 : allWsB w1 = true) (hw2 : allWsB w2 = true)
    (hw3 : allWsB w3 = true) (hw4 : allWsB w4 = true)
    (hw5 : allWsB w5 = true) (hw6 : allWsB w6 = true)
    (hv : dollarSafe v = true) :
    formatTemplate
        (a ++ (phw w1 key w2 ++ (b ++ (phw w3 nm w4 ++ (c ++ (phw w5 key w6 ++ d))))))
        [(key, v)]
      = a ++ (v ++ (b ++ (phw w3 nm w4 ++ (c ++ (v ++ d))))) := by
  rw [formatTemplate_single]
  rw [repl_copy key v a ha [] _]
  rw [repl_match key v w1 w2 hkey hk0 hw1 hw2 hv ([] ++ a) _]
  rw [repl_copy key v b hb _ _]
  rw [repl_mismatch key v nm w3 w4 hkey hnm hne hnm0 hw3 hw4 _ _]
  rw [repl_copy key v c hc _ _]
  rw [repl_match key v w5 w6 hkey hk0 hw5 hw6 hv _ _]
  rw [repl_id key v d hd _]

/-- Witness for C8 at the spec's concrete shape (plus a second bound
occurrence): formatting
`"Hello {{name}}, {{unbound}} and {{name}}!"` with `name ↦ "Ada"`. -/
theorem C8_format_placeholders_witness :
    formatTemplate
        (strL "Hello " ++ (phw [] (strL "name") [] ++ (strL ", "
          ++ (phw [] (strL "unbound") [] ++ (strL " and "
          ++ (phw [] (strL "name") [] ++ strL "!"))))))
        [(strL "name", strL "Ada")]
      = strL "Hello " ++ (strL "Ada" ++ (strL ", "
          ++ (phw [] (strL "unbound") [] ++ (strL " and " ++ (strL "Ada" ++ strL "!"))))) :=
  C8_format_placeholders (strL "Hello ") (strL ", ") (strL " and ") (strL "!")
    (strL "Ada") (strL "name") (strL "unbound") [] [] [] [] [] []
    (by decide) (by decide) (by decide) (by decide) (by decide) (by decide)
    (by decide) (by decide) (by decide) rfl rfl rfl rfl rfl rfl (by decide)

/-- Counterexample to C8 as stated: the bound value `"$&"` is not
substituted verbatim — JavaScript's replacement-pattern handling inserts
the matched placeholder text instead. -/
theorem C8_format_placeholders_counterexample :
    formatTemplate (strL "\x7b\x7bname\x7d\x7d") [(strL "name", strL "$&")]
        = strL "\x7b\x7bname\x7d\x7d"
    ∧ ¬ formatTemplate (strL "\x7b\x7bname\x7d\x7d") [(strL "name", strL "$&")]
        = strL "$&" := by
  constructor
  · decide
  · decide

/-! ### The step loop: success characterization -/

/-- A successful `LangChainTool.invoke` is a successful handler run plus
the name/description decoration. -/
theorem toolInvoke_ok_inv (t : LCTool) (input : Str) (ctx : HandlerCtx) (r : Str)
    (h : toolInvoke t input ctx = .ok r) :
    ∃ r0 : Str, t.handler input ctx = .ok r0 ∧ r = wrapResult t r0 := by
  rw [toolInvoke] at h
  cases hh : t.handler input ctx with
  | error e => rw [hh] at h; cases h
  | ok r0 =>
    rw [hh] at h
    injection h with h1
    exact ⟨r0, rfl, h1.symm⟩

/-- A failing `LangChainTool.invoke` is exactly a failing handler run,
with the error unmodified. -/
theorem toolInvoke_err_inv (t : LCTool) (input : Str) (ctx : HandlerCtx) (e : Str)
    (h : toolInvoke t input ctx = .error e) : t.handler input ctx = .error e := by
  rw [toolInvoke] at h
  cases hh : t.handler input ctx with
  | error e' => rw [hh] at h; injection h with h1; rw [h1]
  | ok r0 => rw [hh] at h; cases h

set_option maxHeartbeats 1600000 in
/-- Full characterization of a successful pass of the step loop: the new
trace entries `L`, one per step; the threaded state; and, for each index
`k`, the formatted prompt (with the four bindings as they stood before
step `k`), the recorded tool result, and the synthesized response. -/
theorem stepLoop_ok (limit : Nat) (md : List (Str × Str)) :
    ∀ (steps : List ChainStep) (st st' : RunState),
      stepLoop limit md steps st = (st', none) →
      ∃ L : List StepTrace,
        st'.trace = st.trace ++ L ∧
        L.length = steps.length ∧
        L.map (·.step) = steps.map (·.name) ∧
        st'.prev = lastD (L.map (·.response)) st.prev ∧
        st'.mem = applyAppends limit st.mem (assistEntries st.clock (L.map (·.response))) ∧
        st'.clock = st.clock + L.length ∧
        st'.toolResults = trFold st.toolResults (steps.zip L) ∧
        ∀ k (hk : k < steps.length) (hkL : k < L.length),
          (L.get ⟨k, hkL⟩).step = (steps.get ⟨k, hk⟩).name ∧
          (L.get ⟨k, hkL⟩).prompt
            = formatTemplate (steps.get ⟨k, hk⟩).prompt
                (stepBindings
                  (lastD ((L.take k).map (·.response)) st.prev)
                  (applyAppends limit st.mem
                    (assistEntries st.clock ((L.take k).map (·.response))))
                  md
                  (trFold st.toolResults ((steps.zip L).take k))) ∧
          (L.get ⟨k, hkL⟩).response
            = generateResponse (L.get ⟨k, hkL⟩).prompt (L.get ⟨k, hkL⟩).toolResult ∧
          ((steps.get ⟨k, hk⟩).tool = none → (L.get ⟨k, hkL⟩).toolResult = none) ∧
          (∀ t : LCTool, (steps.get ⟨k, hk⟩).tool = some t →
            ∃ r0 : Str,
              t.handler (L.get ⟨k, hkL⟩).prompt
                  ⟨applyAppends limit st.mem
                      (assistEntries st.clock ((L.take k).map (·.response))),
                    md, trFold st.toolResults ((steps.zip L).take k)⟩ = .ok r0 ∧
              (L.get ⟨k, hkL⟩).toolResult = some (wrapResult t r0)) := by
  intro steps
  induction steps with
  | nil =>
    intro st st' h
    simp only [stepLoop] at h
    injection h with h1 _
    subst h1
    refine ⟨[], by simp, rfl, rfl, rfl, by simp [applyAppends, assistEntries], by simp,
      rfl, ?_⟩
    intro k hk
    exact absurd hk (by simp)
  | cons step rest ih =>
    intro st st' h
    cases htool : step.tool with
    | none =>
      simp only [stepLoop, htool] at h
      set response := generateResponse
        (formatTemplate step.prompt (stepBindings st.prev st.mem md st.toolResults)) none
        with hresp
      set prompt := formatTemplate step.prompt (stepBindings st.prev st.mem md st.toolResults)
        with hprompt
      obtain ⟨L', h1, h2, h3, h4, h5, h6, h7, h8⟩ := ih _ _ h
      refine ⟨⟨step.name, prompt, none, response⟩ :: L', ?_, ?_, ?_, ?_, ?_, ?_, ?_, ?_⟩
      · rw [h1]; simp
      · simp [h2]
      · simp [h3]
      · rw [h4]; rfl
      · rw [h5]; rfl
      · rw [h6]; simp; omega
      · rw [h7]
        simp only [List.zip_cons_cons, trFold, List.foldl_cons, htool]
      · intro k hk hkL
        cases k with
        | zero =>
          refine ⟨rfl, ?_, rfl, fun _ => rfl, ?_⟩
          · simp [stepBindings, applyAppends, trFold, lastD, assistEntries, hprompt]
          · intro t ht
            have ht2 : step.tool = some t := ht
            rw [htool] at ht2
            cases ht2
        | succ k' =>
          have hk' : k' < rest.length := by simpa using hk
          have hkL' : k' < L'.length := by simpa using hkL
          have hx := h8 k' hk' hkL'
          simpa [List.take_succ_cons, lastD, assistEntries, applyAppends, trFold, htool]
            using hx
    | some t =>
      simp only [stepLoop, htool] at h
      cases hti : toolInvoke t
          (formatTemplate step.prompt (stepBindings st.prev st.mem md st.toolResults))
          ⟨st.mem, md, st.toolResults⟩ with
      | error e => rw [hti] at h; cases h
      | ok r =>
        rw [hti] at h
        set prompt := formatTemplate step.prompt (stepBindings st.prev st.mem md st.toolResults)
          with hprompt
        set response := generateResponse prompt (some r) with hresp
        obtain ⟨L', h1, h2, h3, h4, h5, h6, h7, h8⟩ := ih _ _ h
        refine ⟨⟨step.name, prompt, some r, response⟩ :: L', ?_, ?_, ?_, ?_, ?_, ?_, ?_, ?_⟩
        · rw [h1]; simp
        · simp [h2]
        · simp [h3]
        · rw [h4]; rfl
        · rw [h5]; rfl
        · rw [h6]; simp; omega
        · rw [h7]
          simp only [List.zip_cons_cons, trFold, List.foldl_cons, htool]
        · intro k hk hkL
          cases k with
          | zero =>
            refine ⟨rfl, ?_, rfl, ?_, ?_⟩
            · simp [stepBindings, applyAppends, trFold, lastD, assistEntries, hprompt]
            · intro hnone
              have h2 : step.tool = none := hnone
              rw [htool] at h2
              cases h2
            · intro t' ht'
              have ht2 : step.tool = some t' := ht'
              rw [htool] at ht2
              injection ht2 with ht2
              subst ht2
              obtain ⟨r0, hr0, hwrap⟩ := toolInvoke_ok_inv t _ _ r hti
              refine ⟨r0, ?_, by simp [hwrap]⟩
              simpa [applyAppends, assistEntries, trFold] using hr0
          | succ k' =>
            have hk' : k' < rest.length := by simpa using hk
            have hkL' : k' < L'.length := by simpa using hkL
            have hx := h8 k' hk' hkL'
            simpa [List.take_succ_cons, lastD, assistEntries, applyAppends, trFold, htool]
              using hx

/-! ### Unpacking `invoke` -/

/-- A successful `invoke` ran the step loop to completion from the seeded
state, returned its result, and persisted its memory and clock; the guard
ensures the step list was non-empty. -/
theorem invoke_ok_inv (wf : LangChainWorkflow) (q : Str) (md : List (Str × Str))
    (res : WorkflowResult) (wf' : LangChainWorkflow)
    (h : invoke wf q md = (.ok res, wf')) :
    wf.steps ≠ [] ∧
    ∃ st : RunState,
      stepLoop wf.limit md wf.steps
          ⟨memAppend wf.limit wf.history ⟨.user, q, wf.clock⟩, wf.clock + 1, [], q, []⟩
        = (st, none) ∧
      res = ⟨st.prev, st.trace⟩ ∧
      wf' = { wf with history := st.mem, clock := st.clock } := by
  rw [invoke] at h
  by_cases hs : wf.steps.isEmpty
  · rw [if_pos hs] at h
    injection h with h1 _
    cases h1
  · rw [if_neg hs] at h
    refine ⟨by simpa using hs, ?_⟩
    cases hsl : stepLoop wf.limit md wf.steps
        ⟨memAppend wf.limit wf.history ⟨.user, q, wf.clock⟩, wf.clock + 1, [], q, []⟩ with
    | mk st oerr =>
      simp only [hsl] at h
      cases oerr with
      | some e => injection h with h1 _; cases h1
      | none =>
        injection h with h1 h2
        injection h1 with h1
        exact ⟨st, rfl, h1.symm, h2.symm⟩

/-- A failing `invoke` on a non-empty workflow stopped the step loop with
that error and still persisted the memory and clock reached so far. -/
theorem invoke_err_inv (wf : LangChainWorkflow) (q : Str) (md : List (Str × Str))
    (e : Str) (wf' : LangChainWorkflow) (hne : wf.steps ≠ [])
    (h : invoke wf q md = (.error e, wf')) :
    ∃ st : RunState,
      stepLoop wf.limit md wf.steps
          ⟨memAppend wf.limit wf.history ⟨.user, q, wf.clock⟩, wf.clock + 1, [], q, []⟩
        = (st, some e) ∧
      wf' = { wf with history := st.mem, clock := st.clock } := by
  rw [invoke] at h
  rw [if_neg (by simpa using hne)] at h
  cases hsl : stepLoop wf.limit md wf.steps
      ⟨memAppend wf.limit wf.history ⟨.user, q, wf.clock⟩, wf.clock + 1, [], q, []⟩ with
  | mk st oerr =>
    simp only [hsl] at h
    cases oerr with
    | some e0 =>
      injection h with h1 h2
      injection h1 with h1
      subst h1
      exact ⟨st, rfl, h2.symm⟩
    | none => injection h with h1 _; cases h1

/-- `lastD` of a non-empty list is its last element, for any default. -/
theorem lastD_eq_getLast : ∀ (l : List StepTrace), l ≠ [] → ∀ d : Str,
    ∃ te : StepTrace, l.getLast? = some te ∧ lastD (l.map (·.response)) d = te.response
  | [], h, _ => absurd rfl h
  | [a], _, d => ⟨a, rfl, rfl⟩
  | a :: b :: t, _, d => by
    obtain ⟨te, h1, h2⟩ := lastD_eq_getLast (b :: t) (by simp) a.response
    exact ⟨te, by rw [List.getLast?_cons_cons]; exact h1, by simpa [lastD] using h2⟩

/-- C2: a successful `invoke` returns a trace with exactly one entry per
configured step, in step-definition order (entry `k` carries step `k`'s
name), and its `final` equals the response recorded in the last trace
entry. -/
theorem C2_trace_completeness (wf : LangChainWorkflow) (q : Str) (md : List (Str × Str))
    (res : WorkflowResult) (wf' : LangChainWorkflow)
    (h : invoke wf q md = (.ok res, wf')) :
    res.trace.length = wf.steps.length ∧
    res.trace.map (·.step) = wf.steps.map (·.name) ∧
    ∃ te : StepTrace, res.trace.getLast? = some te ∧ res.final = te.response := by
  obtain ⟨hne, st, hsl, hres, -⟩ := invoke_ok_inv wf q md res wf' h
  obtain ⟨L, h1, h2, h3, h4, -, -, -, -⟩ := stepLoop_ok wf.limit md wf.steps _ st hsl
  have htr : res.trace = L := by rw [hres]; simpa using h1
  have hLne : L ≠ [] := by
    intro hL
    rw [hL] at h2
    exact hne (List.length_eq_zero.mp h2.symm)
  obtain ⟨te, hlast, hld⟩ := lastD_eq_getLast L hLne q
  refine ⟨by rw [htr, h2], by rw [htr, h3], te, by rw [htr]; exact hlast, ?_⟩
  rw [hres]
  simpa [h4] using hld

/-- The engine state after the successful concrete invocation of `wf1`. -/
def wf1After : LangChainWorkflow :=
  { wf1 with
    history :=
      [⟨.user, strL "q", 0⟩, ⟨.assistant, strL "q | t (d): R", 1⟩, ⟨.assistant, strL "B", 2⟩],
    clock := 3 }

/-- The concrete run used by the witnesses: `invoke wf1 "q" []` succeeds
with `res1` and the persisted state `wf1After`. -/
theorem invoke_wf1_eq : invoke wf1 (strL "q") [] = (.ok res1, wf1After) := rfl

/-- Witness for C2 on the two-step engine `wf1`. -/
theorem C2_trace_completeness_witness :
    res1.trace.length = wf1.steps.length ∧
    res1.trace.map (·.step) = wf1.steps.map (·.name) ∧
    ∃ te : StepTrace, res1.trace.getLast? = some te ∧ res1.final = te.response :=
  C2_trace_completeness wf1 (strL "q") [] res1 wf1After invoke_wf1_eq

/-- One step of the accumulated-tool-results fold, extracted at index
`k`. -/
theorem trAt_succ (steps : List ChainStep) (trace : List StepTrace) (k : Nat)
    (hk : k < steps.length) (hkT : k < trace.length) :
    trAt steps trace (k + 1)
      = (match (steps.get ⟨k, hk⟩).tool, (trace.get ⟨k, hkT⟩).toolResult with
         | some t, some r => setKeyG (trAt steps trace k) t.name r
         | _, _ => trAt steps trace k) := by
  have hz : k < (steps.zip trace).length := by
    rw [List.length_zip]
    omega
  have hget : (steps.zip trace)[k]? = some ((steps.get ⟨k, hk⟩), (trace.get ⟨k, hkT⟩)) := by
    rw [List.getElem?_eq_getElem hz, List.getElem_zip]
    simp [List.get_eq_getElem]
  rw [trAt, List.take_succ, hget]
  simp only [Option.toList_some]
  rw [trFold, List.foldl_append]
  rfl

/-- C3: during one successful `invoke`, step `k`'s formatted prompt
serializes, as its `toolResults` binding, exactly the mapping accumulated
by steps `0..k-1` (`trAt`, a last-write-wins fold over the earlier
steps' recorded tool results — never step `k`'s own or a later step's);
when step `k` has a bound tool, the tool's handler is invoked with step
`k`'s formatted prompt and the pre-`k` context, and the wrapped result is
stored both as that step's `toolResult` and under the tool's name in the
accumulated mapping (overwriting any prior entry for that name). -/
theorem C3_toolResults_flow (wf : LangChainWorkflow) (q : Str) (md : List (Str × Str))
    (res : WorkflowResult) (wf' : LangChainWorkflow)
    (h : invoke wf q md = (.ok res, wf')) (k : Nat)
    (hk : k < wf.steps.length) (hkT : k < res.trace.length) :
    (res.trace.get ⟨k, hkT⟩).prompt
      = formatTemplate (wf.steps.get ⟨k, hk⟩).prompt
          (stepBindings (prevAt q res.trace k) (memAt wf q res.trace k) md
            (trAt wf.steps res.trace k)) ∧
    ((wf.steps.get ⟨k, hk⟩).tool = none →
      (res.trace.get ⟨k, hkT⟩).toolResult = none ∧
      trAt wf.steps res.trace (k + 1) = trAt wf.steps res.trace k) ∧
    (∀ t : LCTool, (wf.steps.get ⟨k, hk⟩).tool = some t →
      ∃ r0 : Str,
        t.handler (res.trace.get ⟨k, hkT⟩).prompt
            ⟨memAt wf q res.trace k, md, trAt wf.steps res.trace k⟩ = .ok r0 ∧
        (res.trace.get ⟨k, hkT⟩).toolResult = some (wrapResult t r0) ∧
        trAt wf.steps res.trace (k + 1)
          = setKeyG (trAt wf.steps res.trace k) t.name (wrapResult t r0)) := by
  obtain ⟨hne, st, hsl, hres, -⟩ := invoke_ok_inv wf q md res wf' h
  obtain ⟨L, h1, h2, -, -, -, -, -, h8⟩ := stepLoop_ok wf.limit md wf.steps _ st hsl
  have htr : res.trace = L := by rw [hres]; simpa using h1
  subst htr
  have hkL : k < res.trace.length := hkT
  obtain ⟨hx1, hx2, hx3, hx4, hx5⟩ := h8 k hk hkL
  refine ⟨?_, ?_, ?_⟩
  · rw [hx2]
    rfl
  · intro hnone
    refine ⟨hx4 hnone, ?_⟩
    rw [trAt_succ wf.steps res.trace k hk hkL, hnone, hx4 hnone]
  · intro t ht
    obtain ⟨r0, hr0, hwr⟩ := hx5 t ht
    refine ⟨r0, by exact hr0, hwr, ?_⟩
    rw [trAt_succ wf.steps res.trace k hk hkL, ht, hwr]

/-- Witness for C3 at step 0 of the concrete run: the tool's handler ran
on the formatted prompt with the pre-step context, and its wrapped result
was recorded in the trace and stored under the tool's name. -/
theorem C3_toolResults_flow_witness :
    ∃ r0 : Str,
      toolT.handler (res1.trace.get ⟨0, by decide⟩).prompt
          ⟨memAt wf1 (strL "q") res1.trace 0, [], trAt wf1.steps res1.trace 0⟩ = .ok r0 ∧
      (res1.trace.get ⟨0, by decide⟩).toolResult = some (wrapResult toolT r0) ∧
      trAt wf1.steps res1.trace (0 + 1)
        = setKeyG (trAt wf1.steps res1.trace 0) toolT.name (wrapResult toolT r0) :=
  (C3_toolResults_flow wf1 (strL "q") [] res1 wf1After invoke_wf1_eq 0
    (by decide) (by decide)).2.2 toolT rfl

/-- Characterization of a failing pass of the step loop: some prefix of
`k` steps completed (appending `k` assistant responses to memory), step
`k` has a bound tool, and that tool's handler raised exactly the returned
error on the state reached; the trace built so far is dropped, but the
returned state keeps the memory. -/
theorem stepLoop_err (limit : Nat) (md : List (Str × Str)) :
    ∀ (steps : List ChainStep) (st st' : RunState) (e : Str),
      stepLoop limit md steps st = (st', some e) →
      ∃ (rs : List Str) (k : Nat) (hk : k < steps.length) (t : LCTool) (p : Str),
        rs.length = k ∧
        st'.mem = applyAppends limit st.mem (assistEntries st.clock rs) ∧
        st'.clock = st.clock + k ∧
        (steps.get ⟨k, hk⟩).tool = some t ∧
        t.handler p ⟨st'.mem, md, st'.toolResults⟩ = .error e := by
  intro steps
  induction steps with
  | nil =>
    intro st st' e h
    simp only [stepLoop] at h
    injection h with _ h2
    cases h2
  | cons step rest ih =>
    intro st st' e h
    cases htool : step.tool with
    | none =>
      simp only [stepLoop, htool] at h
      obtain ⟨rs', k', hk', t, p, hrs, hmem, hclock, hstep, hhand⟩ := ih _ _ _ h
      refine ⟨generateResponse
          (formatTemplate step.prompt (stepBindings st.prev st.mem md st.toolResults)) none
          :: rs', k' + 1, by simpa using hk', t, p, by simpa using hrs, ?_, ?_, ?_, hhand⟩
      · rw [hmem]
        rfl
      · rw [hclock]
        dsimp only
        omega
      · exact hstep
    | some t =>
      simp only [stepLoop, htool] at h
      cases hti : toolInvoke t
          (formatTemplate step.prompt (stepBindings st.prev st.mem md st.toolResults))
          ⟨st.mem, md, st.toolResults⟩ with
      | error e0 =>
        rw [hti] at h
        injection h with h1 h2
        injection h2 with h2
        subst h1
        subst h2
        refine ⟨[], 0, by simp, t,
          formatTemplate step.prompt (stepBindings st.prev st.mem md st.toolResults),
          rfl, by simp [applyAppends, assistEntries], by simp, htool, ?_⟩
        exact toolInvoke_err_inv t _ _ e0 hti
      | ok r =>
        rw [hti] at h
        obtain ⟨rs', k', hk', t', p, hrs, hmem, hclock, hstep, hhand⟩ := ih _ _ _ h
        refine ⟨generateResponse
            (formatTemplate step.prompt (stepBindings st.prev st.mem md st.toolResults))
            (some r) :: rs', k' + 1, by simpa using hk', t', p, by simpa using hrs,
            ?_, ?_, ?_, hhand⟩
        · rw [hmem]
          rfl
        · rw [hclock]
          dsimp only
          omega
        · exact hstep

/-- C4: on a non-empty workflow, any error coming out of `invoke` is
exactly the error raised by some configured step's bound tool handler —
no retry, fallback, or wrapping — and no `WorkflowResult` (in particular
no partial trace) is returned. -/
theorem C4_tool_error_propagates (wf : LangChainWorkflow) (q : Str)
    (md : List (Str × Str)) (e : Str) (wf' : LangChainWorkflow)
    (hne : wf.steps ≠ []) (h : invoke wf q md = (.error e, wf')) :
    (∃ (k : Nat) (hk : k < wf.steps.length) (t : LCTool) (p : Str) (ctx : HandlerCtx),
      (wf.steps.get ⟨k, hk⟩).tool = some t ∧ t.handler p ctx = .error e) ∧
    ∀ res : WorkflowResult, (invoke wf q md).1 ≠ .ok res := by
  obtain ⟨st, hsl, -⟩ := invoke_err_inv wf q md e wf' hne h
  obtain ⟨rs, k, hk, t, p, -, -, -, hstep, hhand⟩ :=
    stepLoop_err wf.limit md wf.steps _ st e hsl
  refine ⟨⟨k, hk, t, p, _, hstep, hhand⟩, ?_⟩
  intro res hok
  rw [h] at hok
  cases hok

/-- Witness for C4: on `wfErr` (whose second step's tool raises `boom`),
`invoke` propagates exactly `boom`. -/
theorem C4_tool_error_propagates_witness :
    (∃ (k : Nat) (hk : k < wfErr.steps.length) (t : LCTool) (p : Str) (ctx : HandlerCtx),
      (wfErr.steps.get ⟨k, hk⟩).tool = some t ∧ t.handler p ctx = .error (strL "boom")) ∧
    ∀ res : WorkflowResult, (invoke wfErr (strL "q") []).1 ≠ .ok res :=
  C4_tool_error_propagates wfErr (strL "q") [] (strL "boom")
    { wfErr with
      history := [⟨.user, strL "q", 0⟩, ⟨.assistant, strL "A", 1⟩], clock := 2 }
    (List.cons_ne_nil _ _) rfl

/-- C10: when a bound tool handler raises during `invoke`, the error
propagates but the engine's persistent memory keeps the already-performed
appends — the user query and one assistant response per completed step
(window-trimmed), with nothing rolled back — and the engine's registry,
steps and window are unchanged, so a subsequent `invoke` on the returned
engine runs on this mutated memory. -/
theorem C10_memory_persists_on_error (wf : LangChainWorkflow) (q : Str)
    (md : List (Str × Str)) (e : Str) (wf' : LangChainWorkflow)
    (hne : wf.steps ≠ []) (h : invoke wf q md = (.error e, wf')) :
    ∃ (rs : List Str) (k : Nat) (hk : k < wf.steps.length) (t : LCTool) (p : Str)
      (trs : List (Str × Str)),
      rs.length = k ∧
      wf'.history = applyAppends wf.limit
        (memAppend wf.limit wf.history ⟨.user, q, wf.clock⟩)
        (assistEntries (wf.clock + 1) rs) ∧
      wf'.steps = wf.steps ∧ wf'.tools = wf.tools ∧ wf'.limit = wf.limit ∧
      (wf.steps.get ⟨k, hk⟩).tool = some t ∧
      t.handler p ⟨wf'.history, md, trs⟩ = .error e := by
  obtain ⟨st, hsl, hwf'⟩ := invoke_err_inv wf q md e wf' hne h
  obtain ⟨rs, k, hk, t, p, hrs, hmem, -, hstep, hhand⟩ :=
    stepLoop_err wf.limit md wf.steps _ st e hsl
  subst hwf'
  refine ⟨rs, k, hk, t, p, st.toolResults, hrs, ?_, rfl, rfl, rfl, hstep, ?_⟩
  · simpa using hmem
  · simpa using hhand

/-- Witness for C10: after the failing invocation of `wfErr`, the engine
returned with the error holds the user query and the first step's
assistant response in memory. -/
theorem C10_memory_persists_on_error_witness :
    ∃ (rs : List Str) (k : Nat) (hk : k < wfErr.steps.length) (t : LCTool) (p : Str)
      (trs : List (Str × Str)),
      rs.length = k ∧
      ({ wfErr with
          history := [⟨.user, strL "q", 0⟩, ⟨.assistant, strL "A", 1⟩],
          clock := 2 } : LangChainWorkflow).history
        = applyAppends wfErr.limit
            (memAppend wfErr.limit wfErr.history ⟨.user, strL "q", wfErr.clock⟩)
            (assistEntries (wfErr.clock + 1) rs) ∧
      ({ wfErr with
          history := [⟨.user, strL "q", 0⟩, ⟨.assistant, strL "A", 1⟩],
          clock := 2 } : LangChainWorkflow).steps = wfErr.steps ∧
      ({ wfErr with
          history := [⟨.user, strL "q", 0⟩, ⟨.assistant, strL "A", 1⟩],
          clock := 2 } : LangChainWorkflow).tools = wfErr.tools ∧
      ({ wfErr with
          history := [⟨.user, strL "q", 0⟩, ⟨.assistant, strL "A", 1⟩],
          clock := 2 } : LangChainWorkflow).limit = wfErr.limit ∧
      (wfErr.steps.get ⟨k, hk⟩).tool = some t ∧
      t.handler p ⟨({ wfErr with
          history := [⟨.user, strL "q", 0⟩, ⟨.assistant, strL "A", 1⟩],
          clock := 2 } : LangChainWorkflow).history, [], trs⟩ = .error (strL "boom") :=
  C10_memory_persists_on_error wfErr (strL "q") [] (strL "boom")
    { wfErr with
      history := [⟨.user, strL "q", 0⟩, ⟨.assistant, strL "A", 1⟩], clock := 2 }
    (List.cons_ne_nil _ _) rfl

/-- The spec's concrete template pass-through scenario, checked by
evaluation: the bound placeholder is substituted, the unbound one stays
verbatim. -/
theorem formatTemplate_spec_example :
    formatTemplate (strL "Hello \x7b\x7bname\x7d\x7d, \x7b\x7bunbound\x7d\x7d")
      [(strL "name", strL "Ada")] = strL "Hello Ada, \x7b\x7bunbound\x7d\x7d" := by
  decide
